import Mathlib

/-!
Verification of the agent tool-dispatch / streaming-response pipeline of the
Researcher_agent repository, as described in its specification.

Strings are modelled as `List Char` (`Str`), so that the client's hand-rolled
chunk parsing (split on newline, marker filter, prefix stripping) and the
regex-based download-link extraction can be embedded as structurally recursive
executable functions and reasoned about by induction.

The client-side code embedded here comes from `frontend/app/chat/page.tsx`
(the `sendMessage` streaming fold, `extractDownloadableFiles`, and the
"Show Thinking" render guard) and `frontend/components/Toast.tsx`
(the toast id counter and list). The backend Tool Registry and Streaming
Multiplexer are not part of the source tree; where a claim concerns them they
are modelled from the specification text, as marked in their doc comments.
-/

set_option maxRecDepth 4000

/-- Character-list model of JavaScript strings. -/
abbrev Str := List Char

/-- JavaScript whitespace test (`\s`, and the class used by `String.trim`):
space, tab, newline, carriage return, vertical tab, form feed. -/
def isWsChar (c : Char) : Bool :=
  c == ' ' || c == '\t' || c == '\n' || c == '\r' || c == '\x0b' || c == '\x0c'

/-- JavaScript `String.prototype.trim`: drop leading and trailing whitespace. -/
def trimStr (s : Str) : Str :=
  ((s.dropWhile isWsChar).reverse.dropWhile isWsChar).reverse

/-- JavaScript `chunk.split("\n")`. -/
def splitOnNl : Str → List Str
  | [] => [[]]
  | c :: rest =>
    if c = '\n' then [] :: splitOnNl rest
    else
      match splitOnNl rest with
      | [] => [[c]]
      | l :: ls => (c :: l) :: ls

/-- Boolean test that `pat` is an initial segment of the second argument
(JavaScript `line.startsWith(pat)`). -/
def startsWithStr : Str → Str → Bool
  | [], _ => true
  | _ :: _, [] => false
  | p :: ps, c :: cs => p == c && startsWithStr ps cs

/-- JavaScript `s.replace(pat, "")` for a plain-string `pat`: deletes the
first occurrence of `pat` in `s`, if any. -/
def replaceFirst (pat : Str) : Str → Str
  | [] => []
  | c :: rest =>
    if startsWithStr pat (c :: rest) then (c :: rest).drop pat.length
    else c :: replaceFirst pat rest

/-- A decoded stream event as the client sees it: the wire JSON object's
`type` field (here `etype`, since `type` is a Lean keyword) and its
`content` string payload. -/
structure RawEvent where
  etype : Str
  content : Str
deriving DecidableEq, Repr

/-- The client chat message record (`Message` in `chat/page.tsx`); `mid` is
the source's `id` field, `mfiles` its `files` field (name/type pairs). -/
structure Message where
  mid : Nat
  role : Str
  content : Str
  toolOutputs : List Str
  mfiles : List (Str × Str)
deriving DecidableEq, Repr

/-- One step of the client-side fold in `sendMessage`
(`chat/page.tsx` lines 379–386): a `"tool"` event appends its payload to
`toolOutputs`, a `"response"` event overwrites `content`, anything else is
ignored. -/
def applyEvent (m : Message) (e : RawEvent) : Message :=
  if e.etype = "tool".data then { m with toolOutputs := m.toolOutputs ++ [e.content] }
  else if e.etype = "response".data then { m with content := e.content }
  else m

/-- The fresh assistant message created before the stream is consumed
(`chat/page.tsx` lines 360–365): empty content, no tool outputs. -/
def initialAssistantMessage (i : Nat) : Message :=
  { mid := i, role := "assistant".data, content := [], toolOutputs := [], mfiles := [] }

/-- Folding a whole sequence of decoded stream events into the assistant
message, as the `while` loop of `sendMessage` does. -/
def foldEvents (i : Nat) (evs : List RawEvent) : Message :=
  evs.foldl applyEvent (initialAssistantMessage i)

/-- The render guard for the "Show Thinking" trace section
(`chat/page.tsx` line 643): assistant role and a non-empty `toolOutputs`. -/
def showThinkingRendered (m : Message) : Bool :=
  m.role == "assistant".data && decide (0 < m.toolOutputs.length)

theorem filter_cons_pos_of {α : Type} (p : α → Bool) (a : α) (l : List α)
    (h : p a = true) : List.filter p (a :: l) = a :: List.filter p l := by
  simp [List.filter_cons, h]

theorem filter_cons_neg_of {α : Type} (p : α → Bool) (a : α) (l : List α)
    (h : p a = false) : List.filter p (a :: l) = List.filter p l := by
  simp [List.filter_cons, h]

theorem applyEvent_content (m : Message) (e : RawEvent) :
    (applyEvent m e).content
      = if e.etype = "response".data then e.content else m.content := by
  unfold applyEvent
  by_cases ht : e.etype = "tool".data
  · have : ¬ e.etype = "response".data := by
      rw [ht]; decide
    simp [ht, this]
  · by_cases hr : e.etype = "response".data <;> simp [ht, hr]

theorem applyEvent_toolOutputs (m : Message) (e : RawEvent) :
    (applyEvent m e).toolOutputs
      = if e.etype = "tool".data then m.toolOutputs ++ [e.content] else m.toolOutputs := by
  unfold applyEvent
  by_cases ht : e.etype = "tool".data
  · simp [ht]
  · by_cases hr : e.etype = "response".data <;> simp [ht, hr]

theorem foldl_applyEvent_content (evs : List RawEvent) : ∀ m : Message,
    (evs.foldl applyEvent m).content
      = ((evs.filter (fun e => e.etype == "response".data)).map
          RawEvent.content).getLastD m.content := by
  induction evs with
  | nil => intro m; rfl
  | cons e rest ih =>
    intro m
    by_cases hr : e.etype = "response".data
    · rw [List.foldl_cons,
        filter_cons_pos_of (fun x : RawEvent => x.etype == "response".data) e rest
          (by simpa using hr),
        List.map_cons, List.getLastD_cons, ih (applyEvent m e),
        applyEvent_content, if_pos hr]
    · rw [List.foldl_cons,
        filter_cons_neg_of (fun x : RawEvent => x.etype == "response".data) e rest
          (by simpa using hr),
        ih (applyEvent m e), applyEvent_content, if_neg hr]

theorem foldl_applyEvent_toolOutputs (evs : List RawEvent) : ∀ m : Message,
    (evs.foldl applyEvent m).toolOutputs
      = m.toolOutputs ++ ((evs.filter (fun e => e.etype == "tool".data)).map
          RawEvent.content) := by
  induction evs with
  | nil => intro m; simp
  | cons e rest ih =>
    intro m
    by_cases ht : e.etype = "tool".data
    · rw [List.foldl_cons,
        filter_cons_pos_of (fun x : RawEvent => x.etype == "tool".data) e rest
          (by simpa using ht),
        List.map_cons, ih (applyEvent m e), applyEvent_toolOutputs, if_pos ht]
      simp
    · rw [List.foldl_cons,
        filter_cons_neg_of (fun x : RawEvent => x.etype == "tool".data) e rest
          (by simpa using ht),
        ih (applyEvent m e), applyEvent_toolOutputs, if_neg ht]

/-- C1: for every finite sequence of stream events consumed by the client-side
fold in `sendMessage`, the resulting assistant message's `content` equals the
payload of the last event of type `"response"` in the sequence, and equals the
empty string when there is no such event: each `"response"` event replaces the
accumulated text rather than appending to it. -/
theorem claim_C1_last_response_payload (i : Nat) (evs : List RawEvent) :
    (foldEvents i evs).content
      = ((evs.filter (fun e => e.etype == "response".data)).map
          RawEvent.content).getLastD [] := by
  unfold foldEvents
  rw [foldl_applyEvent_content]
  rfl

/-- C2: the folded assistant message's `toolOutputs` list is exactly the
payloads of the `"tool"` events, in arrival order; moreover the fold is
append-only: extending the event sequence only ever extends `toolOutputs`
(what was delivered never shrinks). -/
theorem claim_C2_tool_outputs_append_only (i : Nat) (evs : List RawEvent) :
    (foldEvents i evs).toolOutputs
      = (evs.filter (fun e => e.etype == "tool".data)).map RawEvent.content
    ∧ ∀ more : List RawEvent,
        (foldEvents i evs).toolOutputs <+: (foldEvents i (evs ++ more)).toolOutputs := by
  have key : ∀ l : List RawEvent, (foldEvents i l).toolOutputs
      = (l.filter (fun e => e.etype == "tool".data)).map RawEvent.content := by
    intro l
    unfold foldEvents
    rw [foldl_applyEvent_toolOutputs]
    rfl
  refine ⟨key evs, ?_⟩
  intro more
  refine ⟨(more.filter (fun e => e.etype == "tool".data)).map RawEvent.content, ?_⟩
  rw [key evs, key (evs ++ more), List.filter_append, List.map_append]

/-- C5: a stream with no `"tool"` events folds to an assistant message with an
empty `toolOutputs` list, so the "Show Thinking" section's render guard
(which requires a non-empty `toolOutputs`) is false for that message. -/
theorem claim_C5_no_tool_events_no_thinking (i : Nat) (evs : List RawEvent)
    (h : ∀ e ∈ evs, e.etype ≠ "tool".data) :
    (foldEvents i evs).toolOutputs = [] ∧
      showThinkingRendered (foldEvents i evs) = false := by
  have hempty : (foldEvents i evs).toolOutputs = [] := by
    unfold foldEvents
    rw [foldl_applyEvent_toolOutputs]
    have : evs.filter (fun e => e.etype == "tool".data) = [] := by
      rw [List.filter_eq_nil_iff]
      intro e he
      simpa using h e he
    simp [initialAssistantMessage, this]
  refine ⟨hempty, ?_⟩
  unfold showThinkingRendered
  rw [hempty]
  simp

/-- Concrete response-only stream used to instantiate C5. -/
def demoResponseOnlyEvents : List RawEvent :=
  [⟨"response".data, "hello".data⟩, ⟨"response".data, "hello there".data⟩]

theorem claim_C5_witness :
    (foldEvents 0 demoResponseOnlyEvents).toolOutputs = [] ∧
      showThinkingRendered (foldEvents 0 demoResponseOnlyEvents) = false :=
  claim_C5_no_tool_events_no_thinking 0 demoResponseOnlyEvents (by decide)

/-! ### C3: the client's incremental chunk parser

`sendMessage` (`chat/page.tsx` lines 373–391) processes each received chunk
by `chunk.split("\n")`, keeps the lines satisfying `l.startsWith("data:")`,
strips the event marker with `line.replace("data: ", "")`, JSON-decodes the
result, and dispatches on the decoded object's `type` field; a line that
fails to decode is silently skipped (the empty `catch`). The JSON decoder
below handles the wire shape of stream events — an object with a `type`
string field followed by a `content` string field, with optional whitespace
between tokens and escape-free string literals. -/

/-- Drop leading JSON/JavaScript whitespace. -/
def skipWs (s : Str) : Str := s.dropWhile isWsChar

/-- Consume the literal `lit` from the front of `s`, returning the rest. -/
def expectLit (lit : Str) (s : Str) : Option Str :=
  if startsWithStr lit s then some (s.drop lit.length) else none

/-- Parse an escape-free JSON string literal: a leading quote, the longest
run of non-quote characters, and a closing quote; returns the run and the
remaining input. -/
def parseStringLit : Str → Option (Str × Str)
  | '"' :: rest =>
    match rest.dropWhile (fun ch => ch != '"') with
    | '"' :: rest2 => some (rest.takeWhile (fun ch => ch != '"'), rest2)
    | _ => none
  | _ => none

/-- Opening brace of the event object. -/
def lbrace : Str := ['\x7b']

/-- Closing brace of the event object. -/
def rbrace : Str := ['\x7d']

/-- The quoted `type` key. -/
def typeKey : Str := ['"', 't', 'y', 'p', 'e', '"']

/-- The quoted `content` key. -/
def contentKey : Str := ['"', 'c', 'o', 'n', 't', 'e', 'n', 't', '"']

/-- Decode one serialized stream event, the JSON object
`\x7b"type": "...", "content": "..."\x7d`, tolerating whitespace between
tokens and requiring the whole input to be consumed (as `JSON.parse` does). -/
def decodeEventJson (s : Str) : Option RawEvent :=
  (expectLit lbrace (skipWs s)).bind fun s1 =>
  (expectLit typeKey (skipWs s1)).bind fun s2 =>
  (expectLit [':'] (skipWs s2)).bind fun s3 =>
  (parseStringLit (skipWs s3)).bind fun p1 =>
  (expectLit [','] (skipWs p1.2)).bind fun s5 =>
  (expectLit contentKey (skipWs s5)).bind fun s6 =>
  (expectLit [':'] (skipWs s6)).bind fun s7 =>
  (parseStringLit (skipWs s7)).bind fun p2 =>
  (expectLit rbrace (skipWs p2.2)).bind fun s9 =>
  if skipWs s9 = [] then some ⟨p1.1, p2.1⟩ else none

/-- Tail of the serialized event after the `content` key and separator:
the quoted content value and the closing brace. -/
def encE (c : Str) : Str := '"' :: (c ++ ('"' :: rbrace))

/-- Tail of the serialized event from the `content` key on. -/
def encD (c : Str) : Str := contentKey ++ (':' :: (' ' :: encE c))

/-- Tail of the serialized event from the comma after the type value on. -/
def encC (c : Str) : Str := ',' :: (' ' :: encD c)

/-- Tail of the serialized event from the quoted type value on. -/
def encB (t c : Str) : Str := '"' :: (t ++ ('"' :: encC c))

/-- Tail of the serialized event after the opening brace. -/
def encA (t c : Str) : Str := typeKey ++ (':' :: (' ' :: encB t c))

/-- Canonical serialization of a stream event with `type` value `t` and
`content` value `c`: the line `\x7b"type": "t", "content": "c"\x7d`. -/
def encodeEvent (t c : Str) : Str := lbrace ++ encA t c

/-- A string that can stand inside an escape-free JSON string literal on one
line-delimited event: no quote, no backslash, no newline. -/
def jsonSafe (s : Str) : Bool :=
  s.all (fun ch => ch != '"' && ch != '\\' && ch != '\n')

/-- Processing of a single kept line by the fold in `sendMessage`: strip the
first occurrence of `"data: "`, JSON-decode, dispatch on `type`; on decode
failure the line is skipped. -/
def processLine (m : Message) (line : Str) : Message :=
  match decodeEventJson (replaceFirst "data: ".data line) with
  | some e => applyEvent m e
  | none => m

/-- Processing of one received chunk by the fold in `sendMessage`: split on
newline, keep the lines beginning with `"data:"`, process each kept line. -/
def processChunk (m : Message) (chunk : Str) : Message :=
  ((splitOnNl chunk).filter (fun l => startsWithStr "data:".data l)).foldl processLine m

theorem startsWithStr_self_append (p r : Str) : startsWithStr p (p ++ r) = true := by
  induction p with
  | nil => rfl
  | cons a ps ih => simp [startsWithStr, ih]

theorem expectLit_self (lit r : Str) : expectLit lit (lit ++ r) = some r := by
  unfold expectLit
  rw [if_pos (startsWithStr_self_append lit r), List.drop_left]

theorem skipWs_nws (ch : Char) (r : Str) (h : isWsChar ch = false) :
    skipWs (ch :: r) = ch :: r := by
  simp [skipWs, List.dropWhile_cons, h]

theorem skipWs_sp (r : Str) : skipWs (' ' :: r) = skipWs r := by
  have h : isWsChar ' ' = true := by decide
  simp [skipWs, List.dropWhile_cons, h]

theorem takeWhile_append_all {α : Type} (p : α → Bool) (t r : List α)
    (h : ∀ a ∈ t, p a = true) : (t ++ r).takeWhile p = t ++ r.takeWhile p := by
  induction t with
  | nil => rfl
  | cons a ts ih =>
    rw [List.cons_append, List.takeWhile_cons, h a (by simp), if_pos rfl,
      ih (fun b hb => h b (by simp [hb])), List.cons_append]

theorem dropWhile_append_all {α : Type} (p : α → Bool) (t r : List α)
    (h : ∀ a ∈ t, p a = true) : (t ++ r).dropWhile p = r.dropWhile p := by
  induction t with
  | nil => rfl
  | cons a ts ih =>
    rw [List.cons_append, List.dropWhile_cons, h a (by simp), if_pos rfl,
      ih (fun b hb => h b (by simp [hb]))]

theorem parseStringLit_closed (t r : Str) (ht : ∀ ch ∈ t, (ch != '"') = true) :
    parseStringLit ('"' :: (t ++ ('"' :: r))) = some (t, r) := by
  have hdrop : (t ++ ('"' :: r)).dropWhile (fun ch => ch != '"') = '"' :: r := by
    rw [dropWhile_append_all _ _ _ ht, List.dropWhile_cons]
    simp
  have htake : (t ++ ('"' :: r)).takeWhile (fun ch => ch != '"') = t := by
    rw [takeWhile_append_all _ _ _ ht, List.takeWhile_cons]
    simp
  calc parseStringLit ('"' :: (t ++ ('"' :: r)))
      = (match (t ++ ('"' :: r)).dropWhile (fun ch => ch != '"') with
          | '"' :: rest2 => some ((t ++ ('"' :: r)).takeWhile (fun ch => ch != '"'), rest2)
          | _ => none) := rfl
    _ = some (t, r) := by rw [hdrop, htake]; exact rfl

theorem decodeEventJson_encodeEvent (t c : Str)
    (ht : ∀ ch ∈ t, (ch != '"') = true) (hc : ∀ ch ∈ c, (ch != '"') = true) :
    decodeEventJson (encodeEvent t c) = some ⟨t, c⟩ := by
  have h1 : expectLit lbrace (skipWs (encodeEvent t c)) = some (encA t c) := by
    show expectLit lbrace (skipWs ('\x7b' :: encA t c)) = some (encA t c)
    rw [skipWs_nws _ _ (by decide)]
    exact expectLit_self lbrace (encA t c)
  have h2 : expectLit typeKey (skipWs (encA t c))
      = some (':' :: (' ' :: encB t c)) := by
    show expectLit typeKey
        (skipWs ('"' :: ('t' :: 'y' :: 'p' :: 'e' :: '"' :: (':' :: (' ' :: encB t c)))))
      = some (':' :: (' ' :: encB t c))
    rw [skipWs_nws _ _ (by decide)]
    exact expectLit_self typeKey (':' :: (' ' :: encB t c))
  have h3 : expectLit [':'] (skipWs (':' :: (' ' :: encB t c)))
      = some (' ' :: encB t c) := by
    rw [skipWs_nws _ _ (by decide)]
    exact expectLit_self [':'] (' ' :: encB t c)
  have h4 : parseStringLit (skipWs (' ' :: encB t c)) = some (t, encC c) := by
    rw [skipWs_sp]
    show parseStringLit (skipWs ('"' :: (t ++ ('"' :: encC c)))) = some (t, encC c)
    rw [skipWs_nws _ _ (by decide)]
    exact parseStringLit_closed t (encC c) ht
  have h5 : expectLit [','] (skipWs (encC c)) = some (' ' :: encD c) := by
    show expectLit [','] (skipWs (',' :: (' ' :: encD c))) = some (' ' :: encD c)
    rw [skipWs_nws _ _ (by decide)]
    exact expectLit_self [','] (' ' :: encD c)
  have h6 : expectLit contentKey (skipWs (' ' :: encD c))
      = some (':' :: (' ' :: encE c)) := by
    rw [skipWs_sp]
    show expectLit contentKey
        (skipWs ('"' :: ('c' :: 'o' :: 'n' :: 't' :: 'e' :: 'n' :: 't' :: '"' ::
          (':' :: (' ' :: encE c)))))
      = some (':' :: (' ' :: encE c))
    rw [skipWs_nws _ _ (by decide)]
    exact expectLit_self contentKey (':' :: (' ' :: encE c))
  have h7 : expectLit [':'] (skipWs (':' :: (' ' :: encE c)))
      = some (' ' :: encE c) := by
    rw [skipWs_nws _ _ (by decide)]
    exact expectLit_self [':'] (' ' :: encE c)
  have h8 : parseStringLit (skipWs (' ' :: encE c)) = some (c, rbrace) := by
    rw [skipWs_sp]
    show parseStringLit (skipWs ('"' :: (c ++ ('"' :: rbrace)))) = some (c, rbrace)
    rw [skipWs_nws _ _ (by decide)]
    exact parseStringLit_closed c rbrace hc
  have h9 : expectLit rbrace (skipWs rbrace) = some [] := by decide
  have h10 : skipWs ([] : Str) = [] := by decide
  unfold decodeEventJson
  simp only [h1, Option.some_bind, h2, h3, h4, h5, h6, h7, h8, h9, h10, if_pos]

theorem replaceFirst_strip (a : Char) (p r : Str) :
    replaceFirst (a :: p) ((a :: p) ++ r) = r := by
  show replaceFirst (a :: p) (a :: (p ++ r)) = r
  unfold replaceFirst
  have hsw : startsWithStr (a :: p) (a :: (p ++ r)) = true :=
    startsWithStr_self_append (a :: p) r
  rw [if_pos hsw]
  exact List.drop_left (a :: p) r

theorem splitOnNl_single (s : Str) (h : ∀ ch ∈ s, (ch != '\n') = true) :
    splitOnNl s = [s] := by
  induction s with
  | nil => rfl
  | cons ch r ih =>
    have hch : ¬ ch = '\n' := by simpa using h ch (by simp)
    simp only [splitOnNl]
    rw [if_neg hch, ih (fun a ha => h a (by simp [ha]))]

theorem jsonSafe_split (s : Str) (h : jsonSafe s = true) :
    ∀ ch ∈ s, (ch != '"') = true ∧ (ch != '\n') = true := by
  rw [jsonSafe, List.all_eq_true] at h
  intro ch hch
  have hx := h ch hch
  rw [Bool.and_eq_true, Bool.and_eq_true] at hx
  exact ⟨hx.1.1, hx.2⟩

/-- The fixed characters that can occur in a serialized event outside the two
string values. -/
def eventGroundChars : Str :=
  ['\x7b', '"', 't', 'y', 'p', 'e', ':', ' ', ',', 'c', 'o', 'n', '\x7d']

theorem mem_encodeEvent (t c : Str) (ch : Char) (h : ch ∈ encodeEvent t c) :
    ch ∈ t ∨ ch ∈ c ∨ ch ∈ eventGroundChars := by
  simp only [encodeEvent, encA, encB, encC, encD, encE, lbrace, rbrace, typeKey,
    contentKey, List.mem_append, List.mem_cons, List.mem_singleton,
    List.not_mem_nil, or_false] at h
  simp only [eventGroundChars, List.mem_cons, List.not_mem_nil, or_false]
  tauto

/-- C3: the client's incremental parser splits each chunk on newline, keeps
exactly the lines beginning with the event marker `"data:"`, strips the marker
`"data: "`, JSON-decodes, and dispatches on the decoded `type`; in particular
a kept line formed of `"data: "` followed by a serialized event object with a
`type` and a string `content` is dispatched to the fold step `applyEvent`
(first conjunct), while a line not beginning with the marker leaves the
message untouched (second conjunct). -/
theorem claim_C3_line_framing :
    (∀ (m : Message) (t c : Str), jsonSafe t = true → jsonSafe c = true →
      processChunk m ("data: ".data ++ encodeEvent t c) = applyEvent m ⟨t, c⟩)
    ∧ (∀ (m : Message) (line : Str), startsWithStr "data:".data line = false →
        (∀ ch ∈ line, (ch != '\n') = true) → processChunk m line = m) := by
  constructor
  · intro m t c ht hc
    have htq : ∀ ch ∈ t, (ch != '"') = true := fun ch hch => (jsonSafe_split t ht ch hch).1
    have hcq : ∀ ch ∈ c, (ch != '"') = true := fun ch hch => (jsonSafe_split c hc ch hch).1
    have hnl : ∀ ch ∈ ("data: ".data ++ encodeEvent t c), (ch != '\n') = true := by
      intro ch hch
      rw [List.mem_append] at hch
      cases hch with
      | inl h0 =>
        exact (by decide : ∀ x ∈ "data: ".data, (x != '\n') = true) ch h0
      | inr h1 =>
        rcases mem_encodeEvent t c ch h1 with hmt | hmc | hmg
        · exact (jsonSafe_split t ht ch hmt).2
        · exact (jsonSafe_split c hc ch hmc).2
        · exact (by decide : ∀ x ∈ eventGroundChars, (x != '\n') = true) ch hmg
    have hsplit := splitOnNl_single _ hnl
    unfold processChunk
    rw [hsplit]
    have hkeep : (fun l => startsWithStr "data:".data l)
        ("data: ".data ++ encodeEvent t c) = true :=
      startsWithStr_self_append "data:".data (' ' :: encodeEvent t c)
    rw [filter_cons_pos_of _ _ _ hkeep]
    show processLine m ("data: ".data ++ encodeEvent t c) = applyEvent m ⟨t, c⟩
    unfold processLine
    have hstrip : replaceFirst "data: ".data ("data: ".data ++ encodeEvent t c)
        = encodeEvent t c :=
      replaceFirst_strip 'd' "ata: ".data (encodeEvent t c)
    rw [hstrip, decodeEventJson_encodeEvent t c htq hcq]
  · intro m line hstart hnl
    have hsplit := splitOnNl_single line hnl
    unfold processChunk
    rw [hsplit, filter_cons_neg_of _ _ _ hstart]
    rfl

/-- Concrete instance of a kept tool-event line and a dropped non-marker line. -/
def demoChunk : Str := "data: ".data ++ encodeEvent "tool".data "searching papers".data

theorem claim_C3_witness :
    processChunk (initialAssistantMessage 0) demoChunk
        = applyEvent (initialAssistantMessage 0) ⟨"tool".data, "searching papers".data⟩
      ∧ processChunk (initialAssistantMessage 0) "event: ping".data
        = initialAssistantMessage 0 :=
  ⟨claim_C3_line_framing.1 (initialAssistantMessage 0) "tool".data
      "searching papers".data (by decide) (by decide),
   claim_C3_line_framing.2 (initialAssistantMessage 0) "event: ping".data
      (by decide) (by decide)⟩

/-! ### C6/C8: `extractDownloadableFiles` (`chat/page.tsx` lines 123–142)

The source scans the message content with the global case-insensitive regex
`\[FILE\]:\s*([^\n]+\.(pdf|docx|doc|pptx|ppt|wav|mp3))[\s\S]*?\[DOWNLOAD_LINK\]:\s*([^\n\s]+)`,
cleans markdown asterisks from the captured filename and link, classifies the
lowercased extension, and pushes an entry unless one with the same filename
was already pushed. The matcher below embeds the regex's backtracking
semantics: leftmost match start, greedy `\s*` and `[^\n]+` (longest
alternative tried first), alternation in written order, lazy `[\s\S]*?`
(earliest occurrence of the `[DOWNLOAD_LINK]:` literal first). For the final
`\s*([^\n\s]+)` only the maximal whitespace run needs trying: any shorter
split leaves a leading whitespace character, which `[^\n\s]+` rejects, and
the trailing greedy `[^\n\s]+` with nothing after it always takes the maximal
non-whitespace run. -/

/-- Case-insensitive test that `pat` matches the front of the second
argument. -/
def ciPrefixOf : Str → Str → Bool
  | [], _ => true
  | _ :: _, [] => false
  | p :: ps, c :: cs => p.toLower == c.toLower && ciPrefixOf ps cs

/-- The literal `[FILE]:` of the download pattern. -/
def fileLit : Str := "[FILE]:".data

/-- The literal `[DOWNLOAD_LINK]:` of the download pattern. -/
def dlLit : Str := "[DOWNLOAD_LINK]:".data

/-- The alternatives of the extension capture group, in alternation order. -/
def extAlts : List Str :=
  ["pdf".data, "docx".data, "doc".data, "pptx".data, "ppt".data, "wav".data, "mp3".data]

/-- One successful regex match: the three capture groups (`match[1]`,
`match[2]`, `match[3]`) and the input remaining after the match end, from
which the global-flag scan continues. -/
structure RegexMatch where
  g1 : Str
  g2 : Str
  g3 : Str
  rest : Str
deriving DecidableEq, Repr

/-- `[n, n-1, ..., 1]`: candidate lengths for a greedy one-or-more
quantifier bounded by `n`, longest first. -/
def descFrom (n : Nat) : List Nat := (List.range n).reverse.map (· + 1)

/-- Greedy candidates for `\s*`: the suffixes after each prefix of the
maximal leading whitespace run, longest consumed prefix first. -/
def wsSplitsDesc (s : Str) : List Str :=
  ((List.range ((s.takeWhile isWsChar).length + 1)).reverse).map (fun i => s.drop i)

/-- The extension alternatives matching case-insensitively at the front of
`s`, in alternation order, paired with the remaining input. -/
def extAt (s : Str) : List (Str × Str) :=
  extAlts.filterMap (fun alt =>
    if ciPrefixOf alt s then some (s.take alt.length, s.drop alt.length) else none)

/-- Candidates for the first capture group `([^\n]+\.(…))` at the front of
`s`: a nonempty run of `k` non-newline characters (longest `k` first),
a dot, and an extension alternative; yields `(group1, group2, rest)`. -/
def g1CandidatesDesc (s : Str) : List (Str × Str × Str) :=
  (descFrom (s.takeWhile (fun ch => ch != '\n')).length).flatMap (fun k =>
    match s.drop k with
    | c :: afterDot =>
      if c = '.' then
        (extAt afterDot).map (fun p => (s.take (k + 1 + p.1.length), p.1, p.2))
      else []
    | [] => [])

/-- Lazy candidates for `[\s\S]*?\[DOWNLOAD_LINK\]:`: the suffixes after each
occurrence of the `[DOWNLOAD_LINK]:` literal in `s`, earliest first. -/
def dlSplitsAsc (s : Str) : List Str :=
  (List.range (s.length + 1)).filterMap (fun j =>
    if ciPrefixOf dlLit (s.drop j) then some ((s.drop j).drop dlLit.length) else none)

/-- Attempt the download pattern anchored at the start of `s`, with the
regex's backtracking preference order. -/
def matchAt (s : Str) : Option RegexMatch :=
  if ciPrefixOf fileLit s then
    (wsSplitsDesc (s.drop fileLit.length)).findSome? (fun rest1 =>
      (g1CandidatesDesc rest1).findSome? (fun cand =>
        (dlSplitsAsc cand.2.2).findSome? (fun rest3 =>
          let rest4 := rest3.dropWhile isWsChar
          let g3 := rest4.takeWhile (fun ch => !isWsChar ch)
          if g3.isEmpty then none
          else some ⟨cand.1, cand.2.1, g3, rest4.drop g3.length⟩)))
  else none

/-- One step of the global-flag scan: find the leftmost position with a
match, emit it, continue after the match end; fuelled for termination (the
fuel `length + 1` suffices because every step consumes at least one
character). -/
def execAux : Nat → Str → List RegexMatch
  | 0, _ => []
  | fuel + 1, s =>
    match matchAt s with
    | some m => m :: execAux fuel m.rest
    | none =>
      match s with
      | [] => []
      | _ :: rest => execAux fuel rest

/-- All matches of the download pattern in `content`, in scan order, as the
source's `while ((match = newFormatRegex.exec(content)) !== null)` loop
produces them. -/
def rawMatches (s : Str) : List RegexMatch := execAux (s.length + 1) s

/-- An entry of the list returned by `extractDownloadableFiles`; `ftype` is
the source's `type` field (`type` is a Lean keyword). -/
structure FileEntry where
  filename : Str
  downloadLink : Str
  ftype : Str
deriving DecidableEq, Repr

/-- The source's `cleanMarkdown`: `text.replace(/\*+/g, '').trim()` — remove
every asterisk, then trim whitespace. -/
def cleanMarkdown (s : Str) : Str := trimStr (s.filter (fun ch => ch != '*'))

/-- The extension-to-type classification chain of the source
(lines 133–137). -/
def extTypeOf (ext : Str) : Str :=
  if ext = "pdf".data then "pdf".data
  else if ext = "docx".data ∨ ext = "doc".data then "word".data
  else if ext = "wav".data ∨ ext = "mp3".data then "audio".data
  else if ext = "pptx".data ∨ ext = "ppt".data then "pptx".data
  else "file".data

/-- The entry built from one regex match: cleaned filename and link, and the
type classified from the lowercased `match[2]`. -/
def entryOfMatch (m : RegexMatch) : FileEntry :=
  ⟨cleanMarkdown m.g1, cleanMarkdown m.g3, extTypeOf (m.g2.map Char.toLower)⟩

/-- The body of the source's `while` loop: skip the match if an entry with
the same filename exists, otherwise push the new entry. -/
def pushEntry (files : List FileEntry) (m : RegexMatch) : List FileEntry :=
  if files.any (fun f => f.filename == (entryOfMatch m).filename) then files
  else files ++ [entryOfMatch m]

/-- `extractDownloadableFiles` (`chat/page.tsx` lines 123–142). -/
def extractDownloadableFiles (content : Str) : List FileEntry :=
  (rawMatches content).foldl pushEntry []

theorem pushEntry_dup (files : List FileEntry) (m : RegexMatch)
    (h : files.any (fun f => f.filename == (entryOfMatch m).filename) = true) :
    pushEntry files m = files := by
  unfold pushEntry
  rw [if_pos h]

theorem pushEntry_new (files : List FileEntry) (m : RegexMatch)
    (h : files.any (fun f => f.filename == (entryOfMatch m).filename) = false) :
    pushEntry files m = files ++ [entryOfMatch m] := by
  unfold pushEntry
  rw [if_neg (by simp [h])]

theorem foldl_pushEntry_decomp (ms : List RegexMatch) : ∀ acc : List FileEntry,
    ∃ l, ms.foldl pushEntry acc = acc ++ l ∧ List.Sublist l (ms.map entryOfMatch) := by
  induction ms with
  | nil => intro acc; exact ⟨[], by simp, List.nil_sublist _⟩
  | cons m ms ih =>
    intro acc
    rw [List.foldl_cons]
    cases hdup : acc.any (fun f => f.filename == (entryOfMatch m).filename) with
    | true =>
      obtain ⟨l, h1, h2⟩ := ih acc
      exact ⟨l, by rw [pushEntry_dup _ _ hdup, h1], List.Sublist.cons _ h2⟩
    | false =>
      obtain ⟨l, h1, h2⟩ := ih (acc ++ [entryOfMatch m])
      refine ⟨entryOfMatch m :: l, ?_, List.Sublist.cons₂ _ h2⟩
      rw [pushEntry_new _ _ hdup, h1, List.append_assoc]
      rfl

theorem foldl_pushEntry_pairwise (ms : List RegexMatch) : ∀ acc : List FileEntry,
    acc.Pairwise (fun a b => a.filename ≠ b.filename) →
    (ms.foldl pushEntry acc).Pairwise (fun a b => a.filename ≠ b.filename) := by
  induction ms with
  | nil => intro acc h; simpa using h
  | cons m ms ih =>
    intro acc h
    rw [List.foldl_cons]
    cases hdup : acc.any (fun f => f.filename == (entryOfMatch m).filename) with
    | true => rw [pushEntry_dup _ _ hdup]; exact ih acc h
    | false =>
      rw [pushEntry_new _ _ hdup]
      apply ih
      rw [List.pairwise_append]
      refine ⟨h, by simp, ?_⟩
      intro a ha b hb
      rw [List.mem_singleton] at hb
      subst hb
      have hne := List.any_eq_false.mp hdup a ha
      simpa using hne

theorem foldl_pushEntry_names (ms : List RegexMatch) :
    ∀ (acc : List FileEntry) (m : RegexMatch), m ∈ ms →
    ∃ f ∈ ms.foldl pushEntry acc, f.filename = (entryOfMatch m).filename := by
  induction ms with
  | nil => intro acc m hm; cases hm
  | cons m0 ms ih =>
    intro acc m hm
    rw [List.foldl_cons]
    rcases List.mem_cons.mp hm with rfl | hm'
    · cases hdup : acc.any (fun f => f.filename == (entryOfMatch m).filename) with
      | true =>
        rw [pushEntry_dup _ _ hdup]
        obtain ⟨f, hf, hfe⟩ := List.any_eq_true.mp hdup
        obtain ⟨l, hl, _⟩ := foldl_pushEntry_decomp ms acc
        exact ⟨f, by rw [hl]; exact List.mem_append_left _ hf, by simpa using hfe⟩
      | false =>
        rw [pushEntry_new _ _ hdup]
        obtain ⟨l, hl, _⟩ := foldl_pushEntry_decomp ms (acc ++ [entryOfMatch m])
        refine ⟨entryOfMatch m, ?_, rfl⟩
        rw [hl]
        exact List.mem_append_left _ (List.mem_append_right _ (by simp))
    · exact ih (pushEntry acc m0) m hm'

theorem mem_trimStr (s : Str) (a : Char) (h : a ∈ trimStr s) : a ∈ s := by
  unfold trimStr at h
  rw [List.mem_reverse] at h
  have h2 : a ∈ (s.dropWhile isWsChar).reverse := (List.dropWhile_sublist _).subset h
  rw [List.mem_reverse] at h2
  exact (List.dropWhile_sublist _).subset h2

theorem cleanMarkdown_no_star (s : Str) : ∀ ch ∈ cleanMarkdown s, (ch != '*') = true := by
  intro ch hch
  have h1 : ch ∈ s.filter (fun ch => ch != '*') := mem_trimStr _ ch hch
  exact (List.mem_filter.mp h1).2

theorem ciPrefixOf_take_toLower (p : Str) : ∀ s : Str, ciPrefixOf p s = true →
    (s.take p.length).map Char.toLower = p.map Char.toLower := by
  induction p with
  | nil => intro s h; rfl
  | cons a ps ih =>
    intro s h
    cases s with
    | nil => simp [ciPrefixOf] at h
    | cons c cs =>
      simp only [ciPrefixOf, Bool.and_eq_true] at h
      have hc : a.toLower = c.toLower := by
        have := h.1
        exact (beq_iff_eq.mp this)
      rw [List.length_cons, List.take_succ_cons, List.map_cons, List.map_cons,
        ih cs h.2, hc]

theorem extAlts_lower : ∀ alt ∈ extAlts, alt.map Char.toLower = alt := by decide

theorem matchAt_g2 (s : Str) (m : RegexMatch) (h : matchAt s = some m) :
    ∃ alt ∈ extAlts, m.g2.map Char.toLower = alt := by
  unfold matchAt at h
  by_cases hf : ciPrefixOf fileLit s = true
  swap
  · rw [if_neg hf] at h; cases h
  rw [if_pos hf] at h
  obtain ⟨rest1, _, h1⟩ := List.exists_of_findSome?_eq_some h
  obtain ⟨cand, hcand, h2⟩ := List.exists_of_findSome?_eq_some h1
  obtain ⟨rest3, _, h3⟩ := List.exists_of_findSome?_eq_some h2
  have hg2 : m.g2 = cand.2.1 := by
    dsimp only at h3
    split at h3
    · cases h3
    · injection h3 with h3
      rw [← h3]
  rw [g1CandidatesDesc, List.mem_flatMap] at hcand
  obtain ⟨k, _, hk⟩ := hcand
  cases hd : rest1.drop k with
  | nil => rw [hd] at hk; dsimp only at hk; cases hk
  | cons c afterDot =>
    rw [hd] at hk
    dsimp only at hk
    by_cases hc : c = '.'
    · rw [if_pos hc] at hk
      rw [List.mem_map] at hk
      obtain ⟨⟨p1, p2⟩, hp, hpe⟩ := hk
      rw [extAt, List.mem_filterMap] at hp
      obtain ⟨alt, halt, hae⟩ := hp
      by_cases hci : ciPrefixOf alt afterDot = true
      · rw [if_pos hci] at hae
        injection hae with hae
        refine ⟨alt, halt, ?_⟩
        have hp1 : p1 = afterDot.take alt.length := by
          have := congrArg Prod.fst hae
          exact this.symm
        have hcg : cand.2.1 = p1 := by rw [← hpe]
        rw [hg2, hcg, hp1, ciPrefixOf_take_toLower alt afterDot hci]
        exact extAlts_lower alt halt
      · rw [if_neg hci] at hae; cases hae
    · rw [if_neg hc] at hk; cases hk

theorem execAux_mem : ∀ (fuel : Nat) (s : Str) (m : RegexMatch),
    m ∈ execAux fuel s → ∃ t, matchAt t = some m := by
  intro fuel
  induction fuel with
  | zero => intro s m hm; simp [execAux] at hm
  | succ fuel ih =>
    intro s m hm
    simp only [execAux] at hm
    cases hma : matchAt s with
    | some m0 =>
      rw [hma] at hm
      dsimp only at hm
      rcases List.mem_cons.mp hm with rfl | hm'
      · exact ⟨s, hma⟩
      · exact ih m0.rest m hm'
    | none =>
      rw [hma] at hm
      dsimp only at hm
      cases s with
      | nil => simp at hm
      | cons c rest => exact ih rest m hm

theorem extTypeOf_alt_classified : ∀ alt ∈ extAlts,
    (extTypeOf alt == "pdf".data || extTypeOf alt == "word".data ||
     extTypeOf alt == "audio".data || extTypeOf alt == "pptx".data) = true := by
  decide

/-- C6: `extractDownloadableFiles` is a pure function of the final response
string. Its output is the regex-match list post-processed exactly as claimed:
it is a sublist (hence a subsequence in first-match order) of the cleaned
per-match entries, no two returned entries share a filename, every match's
cleaned filename is represented by some returned entry, and returned
filenames and links carry no markdown asterisks. -/
theorem claim_C6_extract_matches (content : Str) :
    (extractDownloadableFiles content).Pairwise (fun a b => a.filename ≠ b.filename)
    ∧ List.Sublist (extractDownloadableFiles content)
        ((rawMatches content).map entryOfMatch)
    ∧ ((rawMatches content).all (fun m =>
        (extractDownloadableFiles content).any
          (fun f => f.filename == (entryOfMatch m).filename))) = true
    ∧ ((extractDownloadableFiles content).all (fun f =>
        f.filename.all (fun ch => ch != '*') &&
        f.downloadLink.all (fun ch => ch != '*'))) = true := by
  obtain ⟨l, hl, hsub⟩ := foldl_pushEntry_decomp (rawMatches content) []
  have hE : extractDownloadableFiles content = l := by
    rw [extractDownloadableFiles, hl, List.nil_append]
  refine ⟨?_, ?_, ?_, ?_⟩
  · exact foldl_pushEntry_pairwise (rawMatches content) [] (by simp)
  · rw [hE]; exact hsub
  · rw [List.all_eq_true]
    intro m hm
    obtain ⟨f, hf, hfe⟩ := foldl_pushEntry_names (rawMatches content) [] m hm
    rw [List.any_eq_true]
    exact ⟨f, hf, by simp [hfe]⟩
  · rw [List.all_eq_true]
    intro f hf
    rw [hE] at hf
    have hf2 : f ∈ (rawMatches content).map entryOfMatch := hsub.subset hf
    rw [List.mem_map] at hf2
    obtain ⟨m, _, rfl⟩ := hf2
    show ((cleanMarkdown m.g1).all (fun ch => ch != '*') &&
      (cleanMarkdown m.g3).all (fun ch => ch != '*')) = true
    rw [Bool.and_eq_true]
    constructor <;> rw [List.all_eq_true]
    · exact cleanMarkdown_no_star m.g1
    · exact cleanMarkdown_no_star m.g3

/-- C8: every entry returned by `extractDownloadableFiles` is classified as
`pdf`, `word`, `audio`, or `pptx`: the regex's extension group only matches
the seven listed extensions, and each is mapped by a classification branch,
so the `"file"` default is unreachable. -/
theorem claim_C8_no_default_type (content : Str) :
    (extractDownloadableFiles content).all (fun f =>
      f.ftype == "pdf".data || f.ftype == "word".data ||
      f.ftype == "audio".data || f.ftype == "pptx".data) = true := by
  rw [List.all_eq_true]
  intro f hf
  obtain ⟨l, hl, hsub⟩ := foldl_pushEntry_decomp (rawMatches content) []
  have hE : extractDownloadableFiles content = l := by
    rw [extractDownloadableFiles, hl, List.nil_append]
  rw [hE] at hf
  have hf2 : f ∈ (rawMatches content).map entryOfMatch := hsub.subset hf
  rw [List.mem_map] at hf2
  obtain ⟨m, hm, rfl⟩ := hf2
  obtain ⟨t, hmt⟩ := execAux_mem (content.length + 1) content m hm
  obtain ⟨alt, halt, hg2⟩ := matchAt_g2 t m hmt
  show (extTypeOf (m.g2.map Char.toLower) == "pdf".data ||
    extTypeOf (m.g2.map Char.toLower) == "word".data ||
    extTypeOf (m.g2.map Char.toLower) == "audio".data ||
    extTypeOf (m.g2.map Char.toLower) == "pptx".data) = true
  rw [hg2]
  exact extTypeOf_alt_classified alt halt

/-! ### C9: the guard of `sendMessage` (`chat/page.tsx` lines 305–401)

The model below is the state transition performed by one `sendMessage` call,
with the network responses supplied as oracle arguments: `newChatResp` for
the `POST /api/chat/new` call made when no chat is selected (`none` models a
non-ok response or a thrown fetch), `sendResp` for the streamed message
request (the list of received chunks, `none` models a thrown fetch), and
`refreshResp` for the final `fetchChats()` refresh. Requests actually issued
are returned alongside the new state. -/

/-- A chat list entry as the client stores it (only the id is relevant
here). -/
structure Chat where
  cid : Nat
deriving DecidableEq, Repr

/-- An uploaded-file record as the client stores it (`id`,
`original_filename`, `file_type`). -/
structure UploadedFile where
  fid : Nat
  original_filename : Str
  file_type : Str
deriving DecidableEq, Repr

/-- The component state touched by `sendMessage`. -/
structure ChatState where
  currentChatId : Option Nat
  chats : List Chat
  messages : List Message
  input : Str
  uploadedFiles : List UploadedFile
  loading : Bool
deriving DecidableEq, Repr

/-- A network request issued by `sendMessage`. -/
inductive Request where
  | createChat
  | postMessage (chatId : Nat) (content : Str) (fileIds : List Nat)
  | listChats
deriving DecidableEq, Repr

/-- The part of `sendMessage` after a chat id has been resolved (lines
334–400): append the user message, clear the input, set loading, send the
message, fold the streamed chunks into the assistant message, then clear the
uploads and refresh the chat list; on a thrown fetch only the `finally`
branch runs. -/
def sendMessageBody (st : ChatState) (cid : Nat) (now : Nat)
    (sendResp : Option (List Str)) (refreshResp : Option (List Chat))
    (reqs : List Request) : ChatState × List Request :=
  let userMsg : Message :=
    { mid := now, role := "user".data, content := st.input, toolOutputs := [],
      mfiles := st.uploadedFiles.map (fun f => (f.original_filename, f.file_type)) }
  let st1 := { st with messages := st.messages ++ [userMsg], input := [], loading := true }
  let req := Request.postMessage cid st.input (st.uploadedFiles.map (fun f => f.fid))
  match sendResp with
  | none => ({ st1 with loading := false }, reqs ++ [req])
  | some chunks =>
    let assistant := chunks.foldl processChunk (initialAssistantMessage (now + 1))
    ({ st1 with
        messages := st1.messages ++ [assistant],
        uploadedFiles := [],
        loading := false,
        chats := match refreshResp with | some cs => cs | none => st1.chats },
     reqs ++ [req, Request.listChats])

/-- `sendMessage` (lines 305–401): the empty-input guard, chat creation when
none is selected, and the message send. -/
def sendMessage (st : ChatState) (now : Nat) (newChatResp : Option Chat)
    (sendResp : Option (List Str)) (refreshResp : Option (List Chat)) :
    ChatState × List Request :=
  if trimStr st.input = [] ∧ st.uploadedFiles = [] then (st, [])
  else
    match st.currentChatId with
    | some cid => sendMessageBody st cid now sendResp refreshResp []
    | none =>
      match newChatResp with
      | some chat =>
        sendMessageBody
          { st with chats := chat :: st.chats, currentChatId := some chat.cid }
          chat.cid now sendResp refreshResp [Request.createChat]
      | none => (st, [Request.createChat])

/-- C9: if the input is empty or whitespace-only after trimming and there are
no uploaded files, `sendMessage` returns immediately: the state is unchanged
(no chat created, no message appended) and no network request is issued. -/
theorem claim_C9_empty_input_no_effect (st : ChatState) (now : Nat)
    (newChatResp : Option Chat) (sendResp : Option (List Str))
    (refreshResp : Option (List Chat))
    (h1 : trimStr st.input = []) (h2 : st.uploadedFiles = []) :
    sendMessage st now newChatResp sendResp refreshResp = (st, []) := by
  unfold sendMessage
  rw [if_pos ⟨h1, h2⟩]

/-- A state whose input is whitespace-only and which has no uploads. -/
def demoIdleState : ChatState :=
  { currentChatId := none, chats := [], messages := [], input := "   ".data,
    uploadedFiles := [], loading := false }

theorem claim_C9_witness :
    sendMessage demoIdleState 5 none none none = (demoIdleState, []) :=
  claim_C9_empty_input_no_effect demoIdleState 5 none none none (by decide) rfl

/-! ### C10: the toast id counter (`components/Toast.tsx` lines 97–117) -/

/-- One toast in the provider's list. -/
structure ToastItem where
  tid : Nat
  ttype : Str
  message : Str
  duration : Option Nat
deriving DecidableEq, Repr

/-- The module-level `toastId` counter together with the provider's toast
list. -/
structure ToastState where
  counter : Nat
  toasts : List ToastItem
deriving DecidableEq, Repr

/-- `addToast` (lines 110–113): `const id = ++toastId` then append the new
toast to the list. -/
def addToast (st : ToastState) (message ttype : Str) (duration : Option Nat) :
    ToastState :=
  { counter := st.counter + 1,
    toasts := st.toasts ++ [⟨st.counter + 1, ttype, message, duration⟩] }

/-- `removeToast` (lines 115–117): keep every toast whose id differs. -/
def removeToast (st : ToastState) (idv : Nat) : ToastState :=
  { st with toasts := st.toasts.filter (fun t => t.tid != idv) }

/-- The reachable-state invariant of the toast module: every listed toast was
issued by the counter, and ids are pairwise distinct. It holds initially
(`toastId = 0`, empty list) and, by C10, is preserved by both operations. -/
def toastInv (st : ToastState) : Prop :=
  (∀ t ∈ st.toasts, t.tid ≤ st.counter)
    ∧ st.toasts.Pairwise (fun a b => a.tid ≠ b.tid)

theorem filter_tid_length (i : Nat) (l : List ToastItem)
    (hp : l.Pairwise (fun a b => a.tid ≠ b.tid)) :
    l.length ≤ (l.filter (fun t => t.tid != i)).length + 1 := by
  induction l with
  | nil => simp
  | cons a l ih =>
    rw [List.pairwise_cons] at hp
    by_cases ha : a.tid = i
    · have hkeep : l.filter (fun t => t.tid != i) = l := by
        rw [List.filter_eq_self]
        intro b hb
        have := hp.1 b hb
        simp [ha] at this
        simpa using Ne.symm this
      rw [filter_cons_neg_of _ _ _ (by simp [ha]), hkeep]
      simp
    · rw [filter_cons_pos_of _ _ _ (by simpa using ha)]
      have := ih hp.2
      simp only [List.length_cons]
      omega

/-- C10: from any state satisfying the toast invariant, `addToast` issues an
id strictly greater than every id in the list (so ids never repeat and the
invariant is preserved), and `removeToast i` preserves the invariant, removes
at most one entry, keeps every toast with a different id, and is a sublist of
the original list (no entry is modified or reordered). -/
theorem claim_C10_toast_ids (st : ToastState) (message ttype : Str)
    (duration : Option Nat) (i : Nat) (h : toastInv st) :
    (∀ t ∈ st.toasts, t.tid < (addToast st message ttype duration).counter)
    ∧ toastInv (addToast st message ttype duration)
    ∧ toastInv (removeToast st i)
    ∧ st.toasts.length ≤ (removeToast st i).toasts.length + 1
    ∧ (∀ t ∈ st.toasts, t.tid ≠ i → t ∈ (removeToast st i).toasts)
    ∧ List.Sublist (removeToast st i).toasts st.toasts := by
  obtain ⟨hbound, hpair⟩ := h
  have hlt : ∀ t ∈ st.toasts, t.tid < st.counter + 1 := by
    intro t ht
    exact Nat.lt_succ_of_le (hbound t ht)
  refine ⟨hlt, ⟨?_, ?_⟩, ⟨?_, ?_⟩, ?_, ?_, ?_⟩
  · intro t ht
    rw [addToast] at ht ⊢
    rw [List.mem_append] at ht
    rcases ht with ht | ht
    · exact Nat.le_succ_of_le (hbound t ht)
    · rw [List.mem_singleton] at ht
      subst ht
      exact Nat.le_refl _
  · rw [addToast, List.pairwise_append]
    refine ⟨hpair, by simp, ?_⟩
    intro a ha b hb
    rw [List.mem_singleton] at hb
    subst hb
    exact Nat.ne_of_lt (hlt a ha)
  · intro t ht
    rw [removeToast] at ht
    exact hbound t ((List.filter_sublist _).subset ht)
  · exact List.Pairwise.sublist (List.filter_sublist _) hpair
  · exact filter_tid_length i st.toasts hpair
  · intro t ht hne
    rw [removeToast]
    rw [List.mem_filter]
    exact ⟨ht, by simpa using hne⟩
  · exact List.filter_sublist _

/-- A toast state with two distinct live toasts, as after two `addToast`
calls. -/
def demoToastState : ToastState :=
  { counter := 2,
    toasts := [⟨1, "info".data, "saved".data, none⟩,
               ⟨2, "error".data, "failed".data, some 5000⟩] }

theorem claim_C10_witness :
    (∀ t ∈ demoToastState.toasts,
      t.tid < (addToast demoToastState "x".data "info".data none).counter)
    ∧ toastInv (addToast demoToastState "x".data "info".data none)
    ∧ toastInv (removeToast demoToastState 1)
    ∧ demoToastState.toasts.length ≤ (removeToast demoToastState 1).toasts.length + 1
    ∧ (∀ t ∈ demoToastState.toasts, t.tid ≠ 1 →
        t ∈ (removeToast demoToastState 1).toasts)
    ∧ List.Sublist (removeToast demoToastState 1).toasts demoToastState.toasts :=
  claim_C10_toast_ids demoToastState "x".data "info".data none 1
    ⟨by decide, by decide⟩

/-! ### C4, C7: backend components modelled from the specification

The backend Agent Router, Streaming Multiplexer, and Tool Registry live in
the FastAPI service, whose source is not part of this repository tree (only
the front-end and the READMEs are). The definitions below are therefore
models built from the specification text (§3, §4.1, §4.3, §7), as their doc
comments state, and the corresponding claims are settled against these
models. -/

/-- Modelled from the spec: a `StreamEvent` of the Streaming Multiplexer
(§3), a tagged variant with kind `"tool"` or `"response"` and a string
payload. The backend source is missing from the tree. -/
structure StreamEvent where
  kind : Str
  payload : Str
deriving DecidableEq, Repr

/-- Modelled from the spec: the outcome of one Agent Router run (§4.2):
either the Router fails before producing any response text, or it completes
with the ordered completed tool-invocation payloads and the final response
text (per-call errors are already folded into these by the Router's
recoverable/terminal policy). The backend source is missing from the tree. -/
inductive RouterRun where
  | failure (err : Str)
  | success (toolPayloads : List Str) (responseText : Str)
deriving DecidableEq, Repr

/-- Modelled from the spec: the error-acknowledgment payload of the terminal
response event emitted when the Router fails (§4.3 failure semantics; the
spec fixes its existence, not its wording). -/
def errorAck : Str :=
  "Sorry, something went wrong while processing your request.".data

/-- Modelled from the spec: the Streaming Multiplexer (§4.3): one `"tool"`
event per completed invocation, in order, followed by a terminal
`"response"` event carrying the response text; if the Router failed before
producing any response text, a single terminal `"response"` event with the
error acknowledgment. The function is total, so no per-call failure escapes
the stream. The backend source is missing from the tree. -/
def multiplex (run : RouterRun) : List StreamEvent :=
  match run with
  | .failure _ => [⟨"response".data, errorAck⟩]
  | .success toolPayloads responseText =>
      toolPayloads.map (fun p => ⟨"tool".data, p⟩)
        ++ [⟨"response".data, responseText⟩]

/-- C4: on Router failure the Multiplexer emits exactly one terminal
response event carrying the error acknowledgment, and for every run the
emitted stream is non-empty and ends with a `"response"`-kind event — the
stream never closes without a response event, and (the multiplexer being a
total function into event lists) no error propagates out of it. -/
theorem claim_C4_failure_terminal_response (err : Str) (run : RouterRun) :
    multiplex (RouterRun.failure err) = [⟨"response".data, errorAck⟩]
    ∧ multiplex run ≠ []
    ∧ ∃ ev : StreamEvent,
        (multiplex run).getLast? = some ev ∧ ev.kind = "response".data := by
  refine ⟨rfl, ?_, ?_⟩
  · cases run with
    | failure e => simp [multiplex]
    | success tp rt => simp [multiplex]
  · cases run with
    | failure e => exact ⟨⟨"response".data, errorAck⟩, rfl, rfl⟩
    | success tp rt =>
      refine ⟨⟨"response".data, rt⟩, ?_, rfl⟩
      rw [multiplex]
      exact List.getLast?_concat _

/-- Modelled from the spec: a `ToolSpec` (§3): unique name, a structural
description of the input schema, and a capability reference (an opaque
identifier here). The backend source is missing from the tree. -/
structure ToolSpec where
  name : Str
  inputSchema : Str
  capabilityRef : Nat
deriving DecidableEq, Repr

/-- Modelled from the spec: the registry/config-time error taxonomy (§7).
The backend source is missing from the tree. -/
inductive RegistryError where
  | duplicateTool
  | unknownTool
deriving DecidableEq, Repr

/-- Modelled from the spec (§4.1): `register(spec)` fails with
`DuplicateToolError` if the name is already present, otherwise adds the
spec. The backend source is missing from the tree. -/
def register (reg : List ToolSpec) (s : ToolSpec) :
    Except RegistryError (List ToolSpec) :=
  if reg.any (fun t => t.name == s.name) then .error .duplicateTool
  else .ok (reg ++ [s])

/-- Modelled from the spec (§4.1): `resolve(name)` fails with
`UnknownToolError` if absent, otherwise returns the registered spec
unchanged. The backend source is missing from the tree. -/
def resolve (reg : List ToolSpec) (nm : Str) : Except RegistryError ToolSpec :=
  match reg.find? (fun t => t.name == nm) with
  | some t => .ok t
  | none => .error .unknownTool

/-- C7: `register` fails with `DuplicateToolError` exactly when a spec with
the same name is present, and otherwise adds the spec; `resolve` fails with
`UnknownToolError` exactly when no spec with the name is present, and
otherwise returns a registered spec bearing that name, unchanged. -/
theorem claim_C7_registry_contract (reg : List ToolSpec) (s : ToolSpec)
    (nm : Str) :
    (register reg s = .error .duplicateTool ↔ ∃ t ∈ reg, t.name = s.name)
    ∧ (register reg s = .ok (reg ++ [s]) ↔ ¬ ∃ t ∈ reg, t.name = s.name)
    ∧ (resolve reg nm = .error .unknownTool ↔ ¬ ∃ t ∈ reg, t.name = nm)
    ∧ (∀ t, resolve reg nm = .ok t → t ∈ reg ∧ t.name = nm) := by
  have hdup : reg.any (fun t => t.name == s.name) = true ↔ ∃ t ∈ reg, t.name = s.name := by
    rw [List.any_eq_true]
    constructor
    · rintro ⟨t, ht, he⟩; exact ⟨t, ht, by simpa using he⟩
    · rintro ⟨t, ht, he⟩; exact ⟨t, ht, by simpa using he⟩
  refine ⟨?_, ?_, ?_, ?_⟩
  · cases hr : reg.any (fun t => t.name == s.name) with
    | true =>
      rw [register, if_pos hr]
      simpa using hdup.mp hr
    | false =>
      rw [register, if_neg (by simp [hr])]
      constructor
      · intro hfalse; cases hfalse
      · intro hex
        exact absurd (hdup.mpr hex) (by simp [hr])
  · cases hr : reg.any (fun t => t.name == s.name) with
    | true =>
      rw [register, if_pos hr]
      constructor
      · intro hfalse; cases hfalse
      · intro hne; exact absurd (hdup.mp hr) hne
    | false =>
      rw [register, if_neg (by simp [hr])]
      constructor
      · intro _
        intro hex
        exact absurd (hdup.mpr hex) (by simp [hr])
      · intro _; rfl
  · cases hf : reg.find? (fun t => t.name == nm) with
    | none =>
      rw [resolve, hf]
      constructor
      · intro _
        intro ⟨t, ht, he⟩
        have := List.find?_eq_none.mp hf t ht
        exact this (by simpa using he)
      · intro _; rfl
    | some t0 =>
      rw [resolve, hf]
      constructor
      · intro hfalse; cases hfalse
      · intro hne
        refine absurd ?_ hne
        exact ⟨t0, List.mem_of_find?_eq_some hf, by simpa using List.find?_some hf⟩
  · intro t hres
    cases hf : reg.find? (fun t => t.name == nm) with
    | none => rw [resolve, hf] at hres; cases hres
    | some t0 =>
      rw [resolve, hf] at hres
      injection hres with hres
      subst hres
      exact ⟨List.mem_of_find?_eq_some hf, by simpa using List.find?_some hf⟩

/-- A registered search tool. -/
def demoSpecA : ToolSpec := ⟨"search_papers".data, "query:string".data, 0⟩

/-- A registered summarization tool. -/
def demoSpecB : ToolSpec := ⟨"summarize".data, "text:string".data, 1⟩

/-- A registry holding the two demo tools. -/
def demoRegistry : List ToolSpec := [demoSpecA, demoSpecB]

theorem claim_C7_witness :
    register demoRegistry demoSpecA = Except.error RegistryError.duplicateTool
    ∧ (demoSpecB ∈ demoRegistry ∧ demoSpecB.name = "summarize".data) :=
  ⟨(claim_C7_registry_contract demoRegistry demoSpecA "x".data).1.mpr
      ⟨demoSpecA, by decide, rfl⟩,
   (claim_C7_registry_contract demoRegistry demoSpecA "summarize".data).2.2.2
      demoSpecB rfl⟩
